import Mathlib

/-!
# Verification of the `helm` incremental PID controller (`helm.h`)

The controller works on C `double`s.  We embed a double as an exact value:
`D.nan` is the quiet-NaN sentinel, `D.inf s` a signed infinity (`s = true`
for `+∞`), and `D.fin q` a finite value carried exactly as a rational.
The arithmetic below follows IEEE-754 special-value semantics
(`∞ - ∞ = NaN`, `0 * ∞ = NaN`, finite `/ ∞ = 0`, `x / 0 = ±∞` for `x ≠ 0`,
NaN propagates, comparisons with NaN are false); rounding and signed zero
are not modelled, so finite arithmetic is exact.
-/

inductive D where
  | nan : D
  | inf : Bool → D
  | fin : ℚ → D
deriving DecidableEq, Repr

namespace D

/-- `isnan` from `math.h`. -/
def isnan : D → Bool
  | nan => true
  | _ => false

/-- The value is neither NaN nor an infinity. -/
def isFinite : D → Bool
  | fin _ => true
  | _ => false

def neg : D → D
  | nan => nan
  | inf s => inf (!s)
  | fin a => fin (-a)

def add : D → D → D
  | nan, _ => nan
  | _, nan => nan
  | inf s, inf t => if s == t then inf s else nan
  | inf s, fin _ => inf s
  | fin _, inf t => inf t
  | fin a, fin b => fin (a + b)

def sub (x y : D) : D := add x (neg y)

def mul : D → D → D
  | nan, _ => nan
  | _, nan => nan
  | inf s, inf t => inf (s == t)
  | inf s, fin b => if b = 0 then nan else inf (s == decide (0 < b))
  | fin a, inf t => if a = 0 then nan else inf (decide (0 < a) == t)
  | fin a, fin b => fin (a * b)

def div : D → D → D
  | nan, _ => nan
  | _, nan => nan
  | inf _, inf _ => nan
  | inf s, fin b => inf (s == decide (0 ≤ b))
  | fin _, inf _ => fin 0
  | fin a, fin b =>
      if b = 0 then (if a = 0 then nan else inf (decide (0 < a)))
      else fin (a / b)

/-- IEEE `<`: false whenever an operand is NaN. -/
def lt : D → D → Bool
  | nan, _ => false
  | _, nan => false
  | inf s, inf t => !s && t
  | inf s, _ => !s
  | _, inf t => t
  | fin a, fin b => decide (a < b)

/-- IEEE `<=`: false whenever an operand is NaN. -/
def le : D → D → Bool
  | nan, _ => false
  | _, nan => false
  | inf s, inf t => s == t || (!s && t)
  | inf s, _ => !s
  | _, inf t => t
  | fin a, fin b => decide (a ≤ b)

/-- `x` is a non-negative non-NaN value (finite `≥ 0` or `+∞`). -/
def IsNonneg : D → Prop
  | nan => False
  | inf s => s = true
  | fin q => 0 ≤ q

/-- `x` is a strictly positive non-NaN value (finite `> 0` or `+∞`). -/
def IsPos : D → Prop
  | nan => False
  | inf s => s = true
  | fin q => 0 < q

instance : (x : D) → Decidable (IsNonneg x) := fun x =>
  match x with
  | nan => inferInstanceAs (Decidable False)
  | inf s => inferInstanceAs (Decidable (s = true))
  | fin q => inferInstanceAs (Decidable (0 ≤ q))

instance : (x : D) → Decidable (IsPos x) := fun x =>
  match x with
  | nan => inferInstanceAs (Decidable False)
  | inf s => inferInstanceAs (Decidable (s = true))
  | fin q => inferInstanceAs (Decidable (0 < q))

end D

instance : Neg D := ⟨D.neg⟩
instance : Add D := ⟨D.add⟩
instance : Sub D := ⟨D.sub⟩
instance : Mul D := ⟨D.mul⟩
instance : Div D := ⟨D.div⟩

/-- `struct helm_state` of `helm.h`: five tuning parameters and the two
transient fields `y` (last observable) and `f` (filtered observable). -/
structure helm_state where
  kp : D
  Td : D
  Tf : D
  Ti : D
  Tt : D
  y : D
  f : D
deriving DecidableEq, Repr

/-- `helm_reset`: reset all tuning parameters, but not transient state. -/
def helm_reset (h : helm_state) : helm_state :=
  { h with
    kp := D.fin 1
    Td := D.fin 0
    Tf := D.inf true
    Ti := D.inf true
    Tt := D.inf true }

/-- `helm_approach`: reset transient state, but not tuning parameters.
The C code `assert`s the tuning precondition; a failed assertion aborts
the program, which we model as `none`. -/
def helm_approach (h : helm_state) : Option helm_state :=
  if D.le (D.fin 0) h.Td && D.lt (D.fin 0) h.Tf
      && D.lt (D.fin 0) h.Ti && D.lt (D.fin 0) h.Tt
  then some { h with f := D.nan }
  else none

/-- The convex-combination parameter `a = dt / (h->Tf + dt)` computed
inside `helm_steady`. -/
def helmAlpha (Tf dt : D) : D := dt / (Tf + dt)

/-- `helm_steady`: one incremental PID step.  Returns the increment `dv`
paired with the updated state (C mutates `h` in place). -/
def helm_steady (h : helm_state) (dt r u v y : D) : D × helm_state :=
  if y.isnan then (D.fin 0, h) else
  let h1 := if h.f.isnan then { h with y := y, f := y } else h
  let a := helmAlpha h1.Tf dt
  let df := a * (y - h1.f)
  let dy := y - h1.y
  let dv1 := D.fin 0 + (r - y) / h1.Ti
  let dv2 := dv1 + (u - v) / h1.Tt
  let dv3 := dv2 * dt
  let dv4 := dv3 + (h1.Td / h1.Tf) * (df - dy)
  let dv5 := dv4 + (- dy)
  let dv6 := dv5 * h1.kp
  (dv6, { h1 with y := y, f := h1.f + df })

/-- The tuning precondition asserted by `helm_approach`, stated
semantically over the embedded doubles. -/
def validTuning (h : helm_state) : Prop :=
  D.IsNonneg h.Td ∧ D.IsPos h.Tf ∧ D.IsPos h.Ti ∧ D.IsPos h.Tt

instance (h : helm_state) : Decidable (validTuning h) :=
  inferInstanceAs (Decidable (_ ∧ _ ∧ _ ∧ _))

/-- One call's worth of `helm_steady` arguments. -/
structure SIn where
  dt : D
  r : D
  u : D
  v : D
  y : D
deriving DecidableEq, Repr

/-- A call to one of the three controller operations. -/
inductive HOp where
  | reset : HOp
  | approach : HOp
  | steady : SIn → HOp
deriving DecidableEq, Repr

/-- Run a sequence of controller operations; `none` means a failed
`helm_approach` assertion aborted the program. -/
def runOps : helm_state → List HOp → Option helm_state
  | h, [] => some h
  | h, HOp.reset :: ops => runOps (helm_reset h) ops
  | h, HOp.approach :: ops =>
      match helm_approach h with
      | none => none
      | some h1 => runOps h1 ops
  | h, HOp.steady i :: ops => runOps (helm_steady h i.dt i.r i.u i.v i.y).2 ops

/-- The outputs of a sequence of `helm_steady` calls, in call order. -/
def runSteps : helm_state → List SIn → List D
  | _, [] => []
  | h, i :: rest =>
      (helm_steady h i.dt i.r i.u i.v i.y).1 ::
        runSteps (helm_steady h i.dt i.r i.u i.v i.y).2 rest

/-- Pure proportional predictions: each output is
`kp * -(observable - lastObservable_prev)`, where the previous observable
of the very first call (no prior valid sample) is the observable itself. -/
def propExpected (kp : D) : Option D → List SIn → List D
  | _, [] => []
  | prev, i :: rest => kp * (- (i.y - prev.getD i.y)) :: propExpected kp (some i.y) rest

/-- The "previous observable" a call would differentiate against:
none while `f` holds the NaN sentinel, the tracked `y` otherwise. -/
def prevOf (h : helm_state) : Option D := if h.f.isnan then none else some h.y

/-- The filtered observable is the undefined sentinel or a finite number. -/
def finOrNan (x : D) : Prop := x = D.nan ∨ x.isFinite = true

/-- A `helm_steady` argument pack with finite, non-negative `dt` and all
other arguments finite. -/
def goodIn (i : SIn) : Prop :=
  i.dt.isFinite = true ∧ D.le (D.fin 0) i.dt = true ∧
  i.r.isFinite = true ∧ i.u.isFinite = true ∧
  i.v.isFinite = true ∧ i.y.isFinite = true

/-- Restriction on an operation sequence: every step has finite
non-negative `dt` and a finite-or-sentinel observable. -/
def goodOp : HOp → Prop
  | HOp.steady i =>
      i.dt.isFinite = true ∧ D.le (D.fin 0) i.dt = true ∧
        (i.y = D.nan ∨ i.y.isFinite = true)
  | _ => True

/-- A fully enabled, valid tuning with a pending first sample. -/
def exState1 : helm_state :=
  { kp := D.fin 2, Td := D.fin 1, Tf := D.fin 2, Ti := D.fin 4, Tt := D.fin 8,
    y := D.fin 3, f := D.nan }

/-- Valid tuning, pure proportional terms, first sample pending, stale `y`. -/
def exState2 : helm_state :=
  { kp := D.fin 1, Td := D.fin 0, Tf := D.fin 1, Ti := D.inf true, Tt := D.inf true,
    y := D.fin 5, f := D.nan }

/-- Valid tuning whose derivative time scale is infinite. -/
def exState3 : helm_state :=
  { kp := D.fin 1, Td := D.inf true, Tf := D.fin 1, Ti := D.inf true, Tt := D.inf true,
    y := D.fin 0, f := D.nan }

/-- Valid tuning with an infinite gain, at equilibrium. -/
def exState4 : helm_state :=
  { kp := D.inf true, Td := D.fin 0, Tf := D.fin 1, Ti := D.inf true, Tt := D.inf true,
    y := D.fin 0, f := D.fin 0 }

/-- Valid tuning with finite fields throughout, at equilibrium. -/
def exState5 : helm_state :=
  { kp := D.fin 3, Td := D.fin 1, Tf := D.fin 2, Ti := D.fin 4, Tt := D.fin 8,
    y := D.fin 7, f := D.fin 7 }

/-- Valid tuning, finite transient state. -/
def exState6 : helm_state :=
  { kp := D.fin 1, Td := D.fin 0, Tf := D.fin 1, Ti := D.inf true, Tt := D.inf true,
    y := D.fin 0, f := D.fin 0 }

/-- A single step whose `dt` is `-1`, exactly cancelling `Tf = 1`. -/
def exIn1 : SIn :=
  { dt := D.fin (-1), r := D.fin 0, u := D.fin 0, v := D.fin 0, y := D.fin 1 }

/-- A single step with `dt = -1` at an equilibrium observable. -/
def exIn2 : SIn :=
  { dt := D.fin (-1), r := D.fin 0, u := D.fin 0, v := D.fin 0, y := D.fin 0 }

/-- Two well-formed proportional steps: observables 2 then 3, unit `dt`. -/
def wIns5 : List SIn :=
  [{ dt := D.fin 1, r := D.fin 0, u := D.fin 0, v := D.fin 0, y := D.fin 2 },
   { dt := D.fin 1, r := D.fin 0, u := D.fin 0, v := D.fin 0, y := D.fin 3 }]

/-- A one-step sequence whose `dt` is finite but negative. -/
def cxIns5 : List SIn := [exIn2]

/-- A one-operation sequence: a step with `dt = -1` cancelling `Tf = 1`. -/
def cxOps7 : List HOp := [HOp.steady exIn1]

/-- A lifecycle: re-tune, enter automatic control, one valid sample, one
dropped (sentinel) sample. -/
def wOps7 : List HOp :=
  [HOp.reset, HOp.approach,
   HOp.steady { dt := D.fin 1, r := D.fin 0, u := D.fin 0, v := D.fin 0, y := D.fin 2 },
   HOp.steady { dt := D.fin 1, r := D.fin 0, u := D.fin 0, v := D.fin 0, y := D.nan }]

namespace D

@[simp] theorem isnan_nan : D.nan.isnan = true := rfl

@[simp] theorem isnan_inf (s : Bool) : (D.inf s).isnan = false := rfl

@[simp] theorem isnan_fin (a : ℚ) : (D.fin a).isnan = false := rfl

@[simp] theorem isFinite_nan : D.nan.isFinite = false := rfl

@[simp] theorem isFinite_inf (s : Bool) : (D.inf s).isFinite = false := rfl

@[simp] theorem isFinite_fin (a : ℚ) : (D.fin a).isFinite = true := rfl

@[simp] theorem neg_nan : -D.nan = D.nan := rfl

@[simp] theorem neg_inf (s : Bool) : -(D.inf s) = D.inf (!s) := rfl

@[simp] theorem neg_fin (a : ℚ) : -(D.fin a) = D.fin (-a) := rfl

@[simp] theorem nan_add (x : D) : D.nan + x = D.nan := by cases x <;> rfl

@[simp] theorem add_nan (x : D) : x + D.nan = D.nan := by cases x <;> rfl

@[simp] theorem inf_add_inf (s t : Bool) :
    D.inf s + D.inf t = if s == t then D.inf s else D.nan := rfl

@[simp] theorem inf_add_fin (s : Bool) (b : ℚ) : D.inf s + D.fin b = D.inf s := rfl

@[simp] theorem fin_add_inf (a : ℚ) (t : Bool) : D.fin a + D.inf t = D.inf t := rfl

@[simp] theorem fin_add_fin (a b : ℚ) : D.fin a + D.fin b = D.fin (a + b) := rfl

@[simp] theorem nan_sub (x : D) : D.nan - x = D.nan := by cases x <;> rfl

@[simp] theorem sub_nan (x : D) : x - D.nan = D.nan := by cases x <;> rfl

@[simp] theorem inf_sub_inf (s t : Bool) :
    D.inf s - D.inf t = if s == !t then D.inf s else D.nan := rfl

@[simp] theorem inf_sub_fin (s : Bool) (b : ℚ) : D.inf s - D.fin b = D.inf s := rfl

@[simp] theorem fin_sub_inf (a : ℚ) (t : Bool) : D.fin a - D.inf t = D.inf (!t) := rfl

@[simp] theorem fin_sub_fin (a b : ℚ) : D.fin a - D.fin b = D.fin (a - b) := by
  show D.fin (a + -b) = D.fin (a - b)
  rw [← sub_eq_add_neg]

@[simp] theorem nan_mul (x : D) : D.nan * x = D.nan := by cases x <;> rfl

@[simp] theorem mul_nan (x : D) : x * D.nan = D.nan := by cases x <;> rfl

@[simp] theorem inf_mul_inf (s t : Bool) : D.inf s * D.inf t = D.inf (s == t) := rfl

@[simp] theorem inf_mul_fin (s : Bool) (b : ℚ) :
    D.inf s * D.fin b = if b = 0 then D.nan else D.inf (s == decide (0 < b)) := rfl

@[simp] theorem fin_mul_inf (a : ℚ) (t : Bool) :
    D.fin a * D.inf t = if a = 0 then D.nan else D.inf (decide (0 < a) == t) := rfl

@[simp] theorem fin_mul_fin (a b : ℚ) : D.fin a * D.fin b = D.fin (a * b) := rfl

@[simp] theorem nan_div (x : D) : D.nan / x = D.nan := by cases x <;> rfl

@[simp] theorem div_nan (x : D) : x / D.nan = D.nan := by cases x <;> rfl

@[simp] theorem inf_div_inf (s t : Bool) : D.inf s / D.inf t = D.nan := rfl

@[simp] theorem inf_div_fin (s : Bool) (b : ℚ) :
    D.inf s / D.fin b = D.inf (s == decide (0 ≤ b)) := rfl

@[simp] theorem fin_div_inf (a : ℚ) (t : Bool) : D.fin a / D.inf t = D.fin 0 := rfl

@[simp] theorem fin_div_fin (a b : ℚ) :
    D.fin a / D.fin b =
      if b = 0 then (if a = 0 then D.nan else D.inf (decide (0 < a))) else D.fin (a / b) := rfl

@[simp] theorem zero_add' (x : D) : D.fin 0 + x = x := by cases x <;> simp

@[simp] theorem add_zero' (x : D) : x + D.fin 0 = x := by cases x <;> simp

theorem mul_comm' (x y : D) : x * y = y * x := by
  have hbc : ∀ a b : Bool, (a == b) = (b == a) := by decide
  cases x with
  | nan => cases y <;> rfl
  | inf s =>
    cases y with
    | nan => rfl
    | inf t => rw [inf_mul_inf, inf_mul_inf, hbc]
    | fin b => rw [inf_mul_fin, fin_mul_inf, hbc]
  | fin a =>
    cases y with
    | nan => rfl
    | inf t => rw [fin_mul_inf, inf_mul_fin, hbc]
    | fin b => rw [fin_mul_fin, fin_mul_fin, mul_comm]

theorem mul_assoc' (x y z : D) : x * y * z = x * (y * z) := by
  have hba : ∀ a b c : Bool, ((a == b) == c) = (a == (b == c)) := by decide
  have hsg : ∀ b c : ℚ, b ≠ 0 → c ≠ 0 →
      decide (0 < b * c) = (decide (0 < b) == decide (0 < c)) := by
    intro b c hb hc
    by_cases hb1 : 0 < b <;> by_cases hc1 : 0 < c
    · simp [hb1, hc1, mul_pos hb1 hc1]
    · have hc2 : c < 0 := lt_of_le_of_ne (not_lt.mp hc1) hc
      have : ¬ (0 < b * c) := not_lt.mpr (mul_neg_of_pos_of_neg hb1 hc2).le
      simp [hb1, hc1, this]
    · have hb2 : b < 0 := lt_of_le_of_ne (not_lt.mp hb1) hb
      have : ¬ (0 < b * c) := not_lt.mpr (mul_neg_of_neg_of_pos hb2 hc1).le
      simp [hb1, hc1, this]
    · have hb2 : b < 0 := lt_of_le_of_ne (not_lt.mp hb1) hb
      have hc2 : c < 0 := lt_of_le_of_ne (not_lt.mp hc1) hc
      simp [hb1, hc1, mul_pos_of_neg_of_neg hb2 hc2]
  cases x with
  | nan => cases y <;> cases z <;> simp
  | inf s =>
    cases y with
    | nan => cases z <;> simp
    | inf t =>
      cases z with
      | nan => simp
      | inf u => simp [hba]
      | fin c =>
        by_cases hc : c = 0 <;> simp [hc, hba]
    | fin b =>
      by_cases hb : b = 0
      · cases z <;> simp [hb]
      · cases z with
        | nan => simp
        | inf u => simp [hb, hba]
        | fin c =>
          by_cases hc : c = 0
          · simp [hb, hc]
          · simp [hb, hc, mul_ne_zero hb hc, hsg b c hb hc, hba]
  | fin a =>
    cases y with
    | nan => cases z <;> simp
    | inf t =>
      by_cases ha : a = 0
      · cases z <;> simp [ha]
      · cases z with
        | nan => simp
        | inf u => simp [ha, hba]
        | fin c =>
          by_cases hc : c = 0
          · simp [ha, hc]
          · simp [ha, hc, hba]
    | fin b =>
      cases z with
      | nan => simp
      | inf u =>
        by_cases ha : a = 0 <;> by_cases hb : b = 0
        · simp [ha, hb]
        · simp [ha, hb]
        · simp [ha, hb]
        · simp [ha, hb, mul_ne_zero ha hb, hsg a b ha hb, hba]
      | fin c => simp [mul_assoc]

theorem le_zero_iff (x : D) : D.le (D.fin 0) x = true ↔ D.IsNonneg x := by
  cases x <;> simp [D.le, D.IsNonneg]

theorem lt_zero_iff (x : D) : D.lt (D.fin 0) x = true ↔ D.IsPos x := by
  cases x <;> simp [D.lt, D.IsPos]

end D

/-- `helm_steady` leaves every tuning parameter untouched. -/
theorem steady_frame (h : helm_state) (dt r u v y : D) :
    (helm_steady h dt r u v y).2.kp = h.kp ∧ (helm_steady h dt r u v y).2.Td = h.Td ∧
    (helm_steady h dt r u v y).2.Tf = h.Tf ∧ (helm_steady h dt r u v y).2.Ti = h.Ti ∧
    (helm_steady h dt r u v y).2.Tt = h.Tt := by
  cases hy : y.isnan <;> cases hf : h.f.isnan <;>
    simp [helm_steady, hy, hf]

/-- The Boolean conjunction `helm_approach` branches on holds exactly when
the semantic tuning precondition does. -/
theorem approach_cond_iff (h : helm_state) :
    (D.le (D.fin 0) h.Td && D.lt (D.fin 0) h.Tf && D.lt (D.fin 0) h.Ti
      && D.lt (D.fin 0) h.Tt) = true ↔ validTuning h := by
  simp [Bool.and_eq_true, D.le_zero_iff, D.lt_zero_iff, validTuning, and_assoc]

/-- `helm_approach` either aborts or only replaces `f` by the sentinel. -/
theorem approach_none_or (h : helm_state) :
    helm_approach h = none ∨ helm_approach h = some { h with f := D.nan } := by
  unfold helm_approach
  by_cases hc : (D.le (D.fin 0) h.Td && D.lt (D.fin 0) h.Tf && D.lt (D.fin 0) h.Ti
      && D.lt (D.fin 0) h.Tt) = true
  · right; rw [if_pos hc]
  · left; rw [if_neg hc]

/-- The accumulation order of `helm_steady` agrees with the spec's single
formula, for all embedded doubles. -/
theorem steady_formula (A B C dy dt kp : D) :
    ((D.fin 0 + A + B) * dt + C + (- dy)) * kp = kp * (dt * (A + B) + C - dy) := by
  rw [D.zero_add', D.mul_comm' (A + B) dt, D.mul_comm' _ kp]
  rfl

/-- For a positive filter time and finite non-negative `dt`, the blending
factor is a finite rational in `[0, 1)`. -/
theorem helmAlpha_mem_Ico (Tf : D) (hTf : D.IsPos Tf) (d : ℚ) (hd : 0 ≤ d) :
    ∃ q : ℚ, helmAlpha Tf (D.fin d) = D.fin q ∧ 0 ≤ q ∧ q < 1 := by
  cases Tf with
  | nan => exact hTf.elim
  | inf s =>
      have hs : s = true := hTf
      subst hs
      exact ⟨0, rfl, le_refl 0, by norm_num⟩
  | fin t =>
      have ht : 0 < t := hTf
      refine ⟨d / (t + d), ?_, div_nonneg hd (by linarith), (div_lt_one (by linarith)).2 (by linarith)⟩
      show D.fin d / (D.fin t + D.fin d) = _
      rw [D.fin_add_fin, D.fin_div_fin, if_neg (by linarith : ¬ (t + d = 0))]

/-- Dividing a finite value by a positive time scale yields a finite value. -/
theorem div_fin_of_pos (c : ℚ) (x : D) (hx : D.IsPos x) :
    ∃ q : ℚ, D.fin c / x = D.fin q := by
  cases x with
  | nan => exact hx.elim
  | inf s => exact ⟨0, by rw [D.fin_div_inf]⟩
  | fin t =>
      have ht : 0 < t := hx
      exact ⟨c / t, by rw [D.fin_div_fin, if_neg ht.ne']⟩

/-- C1: for a tuned controller and a non-sentinel observable, `helm_steady`
returns `kp * (dt * ((r-y)/Ti + (u-v)/Tt) + (Td/Tf) * (df - dy) - dy)` with
`df`, `dy` computed against the state after first-sample initialization, and
updates `y` to the observable and `f` by `df`. -/
theorem helm_steady_increment_formula (h : helm_state) (dt r u v y : D)
    (hv : validTuning h) (hy : y.isnan = false) :
    helm_steady h dt r u v y =
      (let h1 := if h.f.isnan then { h with y := y, f := y } else h
       let df := (dt / (h.Tf + dt)) * (y - h1.f)
       let dy := y - h1.y
       (h.kp * (dt * ((r - y) / h.Ti + (u - v) / h.Tt)
           + (h.Td / h.Tf) * (df - dy) - dy),
        { h1 with y := y, f := h1.f + df })) := by
  cases hf : h.f.isnan <;>
    simp only [helm_steady, helmAlpha, hy, hf, Bool.false_eq_true, if_false, if_true] <;>
    exact congrArg (fun w => (w, _)) (steady_formula _ _ _ _ _ _)

/-- C2: a NaN observable returns exactly zero, changes nothing, and a
subsequent call behaves as if the sentinel call had never happened. -/
theorem helm_steady_nan_noop (h : helm_state) (dt r u v dt2 r2 u2 v2 y2 : D) :
    helm_steady h dt r u v D.nan = (D.fin 0, h) ∧
    helm_steady (helm_steady h dt r u v D.nan).2 dt2 r2 u2 v2 y2 =
      helm_steady h dt2 r2 u2 v2 y2 :=
  ⟨rfl, rfl⟩

/-- C3: `helm_approach` succeeds exactly when `Td ≥ 0` and `Tf`, `Ti`, `Tt`
are strictly positive (a violation aborts), and on success its only effect
is setting `f` to the undefined sentinel. -/
theorem helm_approach_precondition (h : helm_state) :
    ((helm_approach h).isSome = true ↔ validTuning h) ∧
    (helm_approach h = none ∨ helm_approach h = some { h with f := D.nan }) := by
  refine ⟨?_, approach_none_or h⟩
  have hc := approach_cond_iff h
  unfold helm_approach
  by_cases hb : (D.le (D.fin 0) h.Td && D.lt (D.fin 0) h.Tf && D.lt (D.fin 0) h.Ti
      && D.lt (D.fin 0) h.Tt) = true
  · rw [if_pos hb]
    simpa using hc.mp hb
  · rw [if_neg hb]
    simp only [Option.isSome_none, Bool.false_eq_true, false_iff]
    exact fun hv => hb (hc.mpr hv)

/-- C6: `helm_reset` sets exactly the five tuning parameters and never the
transient fields; `helm_approach` never changes tuning; `helm_steady` never
changes tuning. -/
theorem helm_frame_conditions (h : helm_state) (dt r u v y : D) :
    ((helm_reset h).y = h.y ∧ (helm_reset h).f = h.f ∧
     (helm_reset h).kp = D.fin 1 ∧ (helm_reset h).Td = D.fin 0 ∧
     (helm_reset h).Tf = D.inf true ∧ (helm_reset h).Ti = D.inf true ∧
     (helm_reset h).Tt = D.inf true) ∧
    (helm_approach h = none ∨ helm_approach h = some { h with f := D.nan }) ∧
    ((helm_steady h dt r u v y).2.kp = h.kp ∧ (helm_steady h dt r u v y).2.Td = h.Td ∧
     (helm_steady h dt r u v y).2.Tf = h.Tf ∧ (helm_steady h dt r u v y).2.Ti = h.Ti ∧
     (helm_steady h dt r u v y).2.Tt = h.Tt) :=
  ⟨⟨rfl, rfl, rfl, rfl, rfl, rfl, rfl⟩, approach_none_or h, steady_frame h dt r u v y⟩

/-- C8: for finite `dt ≥ 0` and finite `filterTime > 0` the blending factor
`alpha = dt/(filterTime + dt)` is a rational in `[0, 1)`, and it is exactly
zero when `dt = 0`. -/
theorem helmAlpha_convex (t d : ℚ) (ht : 0 < t) (hd : 0 ≤ d) :
    (∃ q : ℚ, helmAlpha (D.fin t) (D.fin d) = D.fin q ∧ 0 ≤ q ∧ q < 1) ∧
    (d = 0 → helmAlpha (D.fin t) (D.fin d) = D.fin 0) := by
  refine ⟨helmAlpha_mem_Ico (D.fin t) ht d hd, ?_⟩
  intro h0
  subst h0
  show D.fin 0 / (D.fin t + D.fin 0) = _
  rw [D.fin_add_fin, D.fin_div_fin, if_neg (by linarith : ¬ (t + 0 = 0))]
  norm_num

/-- Witness for C8 at `filterTime = 1`, `dt = 1`. -/
theorem helmAlpha_convex_witness :
    (∃ q : ℚ, helmAlpha (D.fin 1) (D.fin 1) = D.fin q ∧ 0 ≤ q ∧ q < 1) ∧
    ((1:ℚ) = 0 → helmAlpha (D.fin 1) (D.fin 1) = D.fin 0) :=
  helmAlpha_convex 1 1 one_pos zero_le_one

/-- Witness for C1: a concrete tuned step evaluating to `-7/4`. -/
theorem helm_steady_increment_formula_witness :
    validTuning exState1 ∧
    helm_steady exState1 (D.fin 1) (D.fin 2) (D.fin 3) (D.fin 4) (D.fin 5) =
      (D.fin (-(7/4)),
       { kp := D.fin 2, Td := D.fin 1, Tf := D.fin 2, Ti := D.fin 4, Tt := D.fin 8,
         y := D.fin 5, f := D.fin 5 }) := by
  refine ⟨by norm_num [validTuning, exState1, D.IsPos, D.IsNonneg], ?_⟩
  rw [helm_steady_increment_formula exState1 (D.fin 1) (D.fin 2) (D.fin 3) (D.fin 4) (D.fin 5)
    (by norm_num [validTuning, exState1, D.IsPos, D.IsNonneg]) rfl]
  norm_num [exState1]

namespace D

theorem isFinite_iff (x : D) : x.isFinite = true ↔ ∃ q : ℚ, x = D.fin q := by
  cases x <;> simp

theorem isnan_iff (x : D) : x.isnan = true ↔ x = D.nan := by
  cases x <;> simp

theorem isnan_of_isFinite (x : D) (hx : x.isFinite = true) : x.isnan = false := by
  cases x <;> simp_all

theorem le_fin_fin (a b : ℚ) : D.le (D.fin a) (D.fin b) = true ↔ a ≤ b := by
  simp [D.le]

theorem zero_div_pos (x : D) (hx : D.IsPos x) : D.fin 0 / x = D.fin 0 := by
  cases x with
  | nan => exact hx.elim
  | inf s => rw [fin_div_inf]
  | fin t =>
      have ht : 0 < t := hx
      rw [fin_div_fin, if_neg ht.ne']
      norm_num

end D

/-- Unfolding of `helm_steady` for a non-sentinel observable, with all state
reads routed through the pre-call state. -/
theorem steady_eval (h : helm_state) (dt r u v y : D) (hy : y.isnan = false) :
    helm_steady h dt r u v y =
      (let h1 := if h.f.isnan then { h with y := y, f := y } else h
       let df := helmAlpha h.Tf dt * (y - h1.f)
       let dy := y - h1.y
       (((D.fin 0 + (r - y) / h.Ti + (u - v) / h.Tt) * dt
          + (h.Td / h.Tf) * (df - dy) + - dy) * h.kp,
        { h1 with y := y, f := h1.f + df })) := by
  cases hfn : h.f.isnan <;>
    simp only [helm_steady, hy, hfn, Bool.false_eq_true, if_false, if_true]

/-- On the first valid observable after the transient reset, only the
integral and automatic-reset terms survive: the derivative, filter, and
proportional contributions vanish exactly, for any stale `y`. -/
theorem steady_first_valid (h : helm_state) (r u v : D) (d y0 c : ℚ)
    (hv : validTuning h) (hf : h.f = D.nan) (hTd : h.Td = D.fin c) (hd : 0 ≤ d) :
    (helm_steady h (D.fin d) r u v (D.fin y0)).1 =
      h.kp * D.fin d * ((r - D.fin y0) / h.Ti + (u - v) / h.Tt) := by
  obtain ⟨qa, ha, -, -⟩ := helmAlpha_mem_Ico h.Tf hv.2.1 d hd
  obtain ⟨qc, hc⟩ := div_fin_of_pos c h.Tf hv.2.1
  rw [steady_eval h (D.fin d) r u v (D.fin y0) rfl]
  simp only [hf, D.isnan_nan, if_true, ha, hTd, hc, D.fin_sub_fin, sub_self,
    D.fin_mul_fin, mul_zero, D.add_zero', D.zero_add', D.neg_fin, neg_zero]
  rw [D.mul_comm' (((r - D.fin y0) / h.Ti + (u - v) / h.Tt) * D.fin d) h.kp,
    D.mul_comm' ((r - D.fin y0) / h.Ti + (u - v) / h.Tt) (D.fin d),
    ← D.mul_assoc']

/-- C9: on a state carrying the undefined sentinel, the first valid
observable yields exactly `gain * dt * ((r - y0)/Ti + (u - v)/Tt)`: the
derivative, filter and proportional contributions are exactly zero,
regardless of `filterTime` and of the stale `lastObservable`, provided
`derivativeTime` is finite and `dt ≥ 0`. -/
theorem first_step_integral_reset_formula (h : helm_state) (r u v : D) (d y0 c : ℚ)
    (hv : validTuning h) (hf : h.f = D.nan) (hTd : h.Td = D.fin c) (hd : 0 ≤ d) :
    (helm_steady h (D.fin d) r u v (D.fin y0)).1 =
      h.kp * D.fin d * ((r - D.fin y0) / h.Ti + (u - v) / h.Tt) :=
  steady_first_valid h r u v d y0 c hv hf hTd hd

/-- Witness for C9: a concrete first step evaluating to `-7/4`. -/
theorem first_step_integral_reset_formula_witness :
    (helm_steady exState1 (D.fin 1) (D.fin 2) (D.fin 3) (D.fin 4) (D.fin 5)).1 =
      D.fin (-(7/4)) := by
  rw [first_step_integral_reset_formula exState1 (D.fin 2) (D.fin 3) (D.fin 4) 1 5 1
    (by norm_num [validTuning, exState1, D.IsPos, D.IsNonneg]) rfl rfl (by norm_num)]
  norm_num [exState1]

/-- Counterexample to C9 as frozen: with an infinite `derivativeTime`
(allowed by the checked precondition) the first valid step returns NaN,
not the claimed integral/reset value. -/
theorem first_step_integral_reset_formula_cx :
    validTuning exState3 ∧ exState3.f = D.nan ∧
    (helm_steady exState3 (D.fin 1) (D.fin 0) (D.fin 0) (D.fin 0) (D.fin 0)).1 = D.nan ∧
    exState3.kp * D.fin 1 *
      ((D.fin 0 - D.fin 0) / exState3.Ti + (D.fin 0 - D.fin 0) / exState3.Tt) = D.fin 0 ∧
    D.nan ≠ D.fin 0 := by
  refine ⟨by norm_num [validTuning, exState3, D.IsPos, D.IsNonneg], rfl, ?_, ?_, by simp⟩
  · norm_num [helm_steady, helmAlpha, exState3]
  · norm_num [exState3]

/-- C4: after the transient reset, a first valid sample at the reference
with matched actuator signals and disabled integral/reset action yields
exactly zero, for finite `gain`/`derivativeTime` and finite `dt ≥ 0`. -/
theorem first_step_no_startup_kick (h : helm_state) (d y0 qu qkp qTd : ℚ)
    (hv : validTuning h) (hf : h.f = D.nan)
    (hkp : h.kp = D.fin qkp) (hTd : h.Td = D.fin qTd)
    (hTi : h.Ti = D.inf true) (hTt : h.Tt = D.inf true) (hd : 0 ≤ d) :
    (helm_steady h (D.fin d) (D.fin y0) (D.fin qu) (D.fin qu) (D.fin y0)).1 = D.fin 0 := by
  rw [steady_first_valid h (D.fin y0) (D.fin qu) (D.fin qu) d y0 qTd hv hf hTd hd,
    hkp, hTi, hTt]
  simp

/-- Witness for C4: the concrete startup step returns exactly zero. -/
theorem first_step_no_startup_kick_witness :
    (helm_steady exState2 (D.fin 1) (D.fin 0) (D.fin 0) (D.fin 0) (D.fin 0)).1 = D.fin 0 :=
  first_step_no_startup_kick exState2 1 0 0 1 0
    (by norm_num [validTuning, exState2, D.IsPos, D.IsNonneg]) rfl rfl rfl rfl rfl
    (by norm_num)

/-- Counterexample to C4 as frozen: `dt = -Tf` is finite yet the first
step returns NaN, not zero. -/
theorem first_step_no_startup_kick_cx :
    validTuning exState2 ∧ exState2.f = D.nan ∧
    exState2.Ti = D.inf true ∧ exState2.Tt = D.inf true ∧
    (D.fin (-1)).isFinite = true ∧
    (helm_steady exState2 (D.fin (-1)) (D.fin 0) (D.fin 0) (D.fin 0) (D.fin 0)).1 = D.nan ∧
    D.nan ≠ D.fin 0 := by
  refine ⟨by norm_num [validTuning, exState2, D.IsPos, D.IsNonneg], rfl, rfl, rfl, rfl, ?_,
    by simp⟩
  norm_num [helm_steady, helmAlpha, exState2]

/-- C10: at equilibrium (reference equals the observable, actuator
feedback equals the requested signal, observable equals both transient
fields) a step returns exactly zero and leaves `y` and `f` unchanged,
for finite `gain`/`derivativeTime`/`dt ≥ 0`. -/
theorem equilibrium_fixed_point (h : helm_state) (d y0 qu qkp qTd : ℚ)
    (hv : validTuning h) (hkp : h.kp = D.fin qkp) (hTd : h.Td = D.fin qTd)
    (hy : h.y = D.fin y0) (hfq : h.f = D.fin y0) (hd : 0 ≤ d) :
    (helm_steady h (D.fin d) (D.fin y0) (D.fin qu) (D.fin qu) (D.fin y0)).1 = D.fin 0 ∧
    (helm_steady h (D.fin d) (D.fin y0) (D.fin qu) (D.fin qu) (D.fin y0)).2.y = h.y ∧
    (helm_steady h (D.fin d) (D.fin y0) (D.fin qu) (D.fin qu) (D.fin y0)).2.f = h.f := by
  obtain ⟨qa, ha, -, -⟩ := helmAlpha_mem_Ico h.Tf hv.2.1 d hd
  obtain ⟨qc, hc⟩ := div_fin_of_pos qTd h.Tf hv.2.1
  have h0i := D.zero_div_pos h.Ti hv.2.2.1
  have h0t := D.zero_div_pos h.Tt hv.2.2.2
  rw [steady_eval h (D.fin d) (D.fin y0) (D.fin qu) (D.fin qu) (D.fin y0) rfl]
  simp only [hfq, D.isnan_fin, Bool.false_eq_true, if_false]
  refine ⟨?_, by simp [hy.symm], ?_⟩
  · simp [hy, hfq, ha, hTd, hc, hkp, h0i, h0t]
  · simp [hfq, ha]

/-- Witness for C10: a concrete all-finite equilibrium step. -/
theorem equilibrium_fixed_point_witness :
    (helm_steady exState5 (D.fin 1) (D.fin 7) (D.fin 2) (D.fin 2) (D.fin 7)).1 = D.fin 0 ∧
    (helm_steady exState5 (D.fin 1) (D.fin 7) (D.fin 2) (D.fin 2) (D.fin 7)).2.y = exState5.y ∧
    (helm_steady exState5 (D.fin 1) (D.fin 7) (D.fin 2) (D.fin 2) (D.fin 7)).2.f = exState5.f :=
  equilibrium_fixed_point exState5 1 7 2 3 1
    (by norm_num [validTuning, exState5, D.IsPos, D.IsNonneg]) rfl rfl rfl rfl
    (by norm_num)

/-- Counterexample to C10 as frozen: with an infinite gain (not rejected
by the checked precondition) the equilibrium step returns NaN, not zero. -/
theorem equilibrium_fixed_point_cx :
    validTuning exState4 ∧ exState4.y = D.fin 0 ∧ exState4.f = D.fin 0 ∧
    (helm_steady exState4 (D.fin 1) (D.fin 0) (D.fin 0) (D.fin 0) (D.fin 0)).1 = D.nan ∧
    D.nan ≠ D.fin 0 := by
  refine ⟨by norm_num [validTuning, exState4, D.IsPos, D.IsNonneg], rfl, rfl, ?_, by simp⟩
  norm_num [helm_steady, helmAlpha, exState4]

/-- One pure-proportional step: with integral/reset disabled and zero
derivative time, a well-formed step outputs `kp * -(y - prev)` and keeps
the transient state finite. -/
theorem steady_prop_step (h : helm_state) (i : SIn)
    (hv : validTuning h) (hTi : h.Ti = D.inf true) (hTt : h.Tt = D.inf true)
    (hTd : h.Td = D.fin 0) (hgood : goodIn i)
    (hst : h.f = D.nan ∨ (h.f.isFinite = true ∧ h.y.isFinite = true)) :
    (helm_steady h i.dt i.r i.u i.v i.y).1 = h.kp * (- (i.y - (prevOf h).getD i.y)) ∧
    (helm_steady h i.dt i.r i.u i.v i.y).2.f.isFinite = true ∧
    (helm_steady h i.dt i.r i.u i.v i.y).2.y = i.y := by
  obtain ⟨hdtf, hdtn, hrf, huf, hvf, hyf⟩ := hgood
  obtain ⟨d, hd⟩ := (D.isFinite_iff _).1 hdtf
  obtain ⟨qr, hqr⟩ := (D.isFinite_iff _).1 hrf
  obtain ⟨qu, hqu⟩ := (D.isFinite_iff _).1 huf
  obtain ⟨qv, hqv⟩ := (D.isFinite_iff _).1 hvf
  obtain ⟨qy, hqy⟩ := (D.isFinite_iff _).1 hyf
  have hd0 : 0 ≤ d := by
    rw [hd] at hdtn
    exact (D.le_fin_fin 0 d).1 hdtn
  obtain ⟨qa, ha, -, -⟩ := helmAlpha_mem_Ico h.Tf hv.2.1 d hd0
  have hTf0 : D.fin 0 / h.Tf = D.fin 0 := D.zero_div_pos h.Tf hv.2.1
  rw [steady_eval h i.dt i.r i.u i.v i.y (by rw [hqy]; rfl)]
  rcases hst with hfn | ⟨hff, hyy⟩
  · have hprev : prevOf h = none := by simp [prevOf, hfn]
    simp only [hfn, D.isnan_nan, if_true, hprev, Option.getD_none]
    refine ⟨?_, ?_, trivial⟩
    · rw [hd, hqr, hqy, hqu, hqv, hTi, hTt, hTd, ha]
      simp [hTf0]
      rw [D.mul_comm']
    · rw [hd, hqy, ha]
      simp
  · have hprev : prevOf h = some h.y := by simp [prevOf, D.isnan_of_isFinite _ hff]
    obtain ⟨qf, hqf⟩ := (D.isFinite_iff _).1 hff
    obtain ⟨qy0, hqy0⟩ := (D.isFinite_iff _).1 hyy
    simp only [hqf, D.isnan_fin, Bool.false_eq_true, if_false, hprev, Option.getD_some]
    refine ⟨?_, ?_, trivial⟩
    · rw [hd, hqr, hqy, hqu, hqv, hTi, hTt, hTd, ha, hqy0]
      simp [hTf0]
      rw [D.mul_comm']
    · rw [hd, hqy, ha]
      simp

/-- Pure proportional action over a sequence, generalized over the state
of the transient fields. -/
theorem runSteps_prop (ops : List SIn) : ∀ (h : helm_state),
    validTuning h → h.Ti = D.inf true → h.Tt = D.inf true → h.Td = D.fin 0 →
    (∀ i ∈ ops, goodIn i) →
    (h.f = D.nan ∨ (h.f.isFinite = true ∧ h.y.isFinite = true)) →
    runSteps h ops = propExpected h.kp (prevOf h) ops := by
  induction ops with
  | nil => intro h _ _ _ _ _ _; rfl
  | cons i rest ih =>
      intro h hv hTi hTt hTd hgood hst
      have hstep := steady_prop_step h i hv hTi hTt hTd
        (hgood i (List.mem_cons_self i rest)) hst
      have hfr := steady_frame h i.dt i.r i.u i.v i.y
      have hv' : validTuning (helm_steady h i.dt i.r i.u i.v i.y).2 := by
        obtain ⟨hv1, hv2, hv3, hv4⟩ := hv
        exact ⟨by rw [hfr.2.1]; exact hv1, by rw [hfr.2.2.1]; exact hv2,
          by rw [hfr.2.2.2.1]; exact hv3, by rw [hfr.2.2.2.2]; exact hv4⟩
      have hyfin : i.y.isFinite = true := (hgood i (List.mem_cons_self i rest)).2.2.2.2.2
      have htail := ih (helm_steady h i.dt i.r i.u i.v i.y).2 hv'
        (by rw [hfr.2.2.2.1, hTi]) (by rw [hfr.2.2.2.2, hTt]) (by rw [hfr.2.1, hTd])
        (fun j hj => hgood j (List.mem_cons_of_mem i hj))
        (Or.inr ⟨hstep.2.1, by rw [hstep.2.2]; exact hyfin⟩)
      have hs_prev : prevOf (helm_steady h i.dt i.r i.u i.v i.y).2 = some i.y := by
        unfold prevOf
        rw [D.isnan_of_isFinite _ hstep.2.1, hstep.2.2]
        simp
      show (helm_steady h i.dt i.r i.u i.v i.y).1 ::
          runSteps (helm_steady h i.dt i.r i.u i.v i.y).2 rest =
        h.kp * (- (i.y - (prevOf h).getD i.y)) :: propExpected h.kp (some i.y) rest
      rw [hstep.1, htail, hfr.1, hs_prev]

/-- C5: with `integralTime = resetTime = +∞` and `derivativeTime = 0`,
every step of a sequence started at the transient reset outputs exactly
`gain * -(observable - lastObservable_prev)`, provided each step has
finite `dt ≥ 0` and finite arguments. -/
theorem pure_proportional_sequence (h : helm_state) (ops : List SIn)
    (hv : validTuning h) (hTi : h.Ti = D.inf true) (hTt : h.Tt = D.inf true)
    (hTd : h.Td = D.fin 0) (hf : h.f = D.nan)
    (hgood : ∀ i ∈ ops, goodIn i) :
    runSteps h ops = propExpected h.kp none ops := by
  have hmain := runSteps_prop ops h hv hTi hTt hTd hgood (Or.inl hf)
  rw [hmain]
  unfold prevOf
  rw [hf]
  simp

/-- Witness for C5: observables 2 then 3 at unit `dt` yield outputs 0
then `-1`. -/
theorem pure_proportional_sequence_witness :
    runSteps exState2 wIns5 = propExpected exState2.kp none wIns5 ∧
    propExpected exState2.kp none wIns5 = [D.fin 0, D.fin (-1)] := by
  constructor
  · refine pure_proportional_sequence exState2 wIns5
      (by norm_num [validTuning, exState2, D.IsPos, D.IsNonneg]) rfl rfl rfl rfl ?_
    intro i hi
    simp only [wIns5, List.mem_cons, List.not_mem_nil, or_false] at hi
    rcases hi with hi | hi <;> subst hi <;> norm_num [goodIn, D.le]
  · norm_num [propExpected, wIns5, exState2]

/-- Counterexample to C5 as frozen: a finite but negative `dt` equal to
`-Tf` makes the step output NaN instead of the proportional value. -/
theorem pure_proportional_sequence_cx :
    validTuning exState2 ∧ exState2.Ti = D.inf true ∧ exState2.Tt = D.inf true ∧
    exState2.Td = D.fin 0 ∧ exState2.f = D.nan ∧
    (D.fin (-1)).isFinite = true ∧
    runSteps exState2 cxIns5 = [D.nan] ∧
    propExpected exState2.kp none cxIns5 = [D.fin 0] ∧
    ([D.nan] : List D) ≠ [D.fin 0] := by
  refine ⟨by norm_num [validTuning, exState2, D.IsPos, D.IsNonneg], rfl, rfl, rfl, rfl, rfl,
    ?_, ?_, by simp⟩
  · norm_num [runSteps, helm_steady, helmAlpha, exState2, cxIns5, exIn2]
  · norm_num [propExpected, cxIns5, exIn2, exState2]

/-- One step with positive `Tf`, finite `dt ≥ 0` and a finite-or-sentinel
observable keeps the filtered observable finite-or-sentinel. -/
theorem steady_f_good (h : helm_state) (i : SIn)
    (hTf : D.IsPos h.Tf) (hf : finOrNan h.f)
    (hdt : i.dt.isFinite = true) (hdtn : D.le (D.fin 0) i.dt = true)
    (hy : i.y = D.nan ∨ i.y.isFinite = true) :
    finOrNan (helm_steady h i.dt i.r i.u i.v i.y).2.f := by
  obtain ⟨d, hd⟩ := (D.isFinite_iff _).1 hdt
  have hd0 : 0 ≤ d := by
    rw [hd] at hdtn
    exact (D.le_fin_fin 0 d).1 hdtn
  obtain ⟨qa, ha, -, -⟩ := helmAlpha_mem_Ico h.Tf hTf d hd0
  rcases hy with hyn | hyf
  · have hnoop : helm_steady h i.dt i.r i.u i.v i.y = (D.fin 0, h) := by
      rw [hyn]
      exact rfl
    rw [hnoop]
    exact hf
  · obtain ⟨qy, hqy⟩ := (D.isFinite_iff _).1 hyf
    rw [steady_eval h i.dt i.r i.u i.v i.y (by rw [hqy]; rfl)]
    rcases hf with hfn | hff
    · simp only [hfn, D.isnan_nan, if_true]
      rw [hd, hqy, ha]
      right
      simp
    · obtain ⟨qf, hqf⟩ := (D.isFinite_iff _).1 hff
      simp only [hqf, D.isnan_fin, Bool.false_eq_true, if_false]
      rw [hd, hqy, ha]
      right
      simp

/-- The invariant `Tf > 0 ∧ (f sentinel or finite)` is preserved by every
well-formed operation sequence that completes. -/
theorem runOps_f_good (ops : List HOp) : ∀ (h s : helm_state),
    D.IsPos h.Tf → finOrNan h.f → (∀ op ∈ ops, goodOp op) →
    runOps h ops = some s → D.IsPos s.Tf ∧ finOrNan s.f := by
  induction ops with
  | nil =>
      intro h s hTf hf _ hrun
      injection hrun with hh
      subst hh
      exact ⟨hTf, hf⟩
  | cons op rest ih =>
      intro h s hTf hf hgood hrun
      cases op with
      | reset =>
          refine ih (helm_reset h) s ?_ hf
            (fun j hj => hgood j (List.mem_cons_of_mem _ hj)) hrun
          exact rfl
      | approach =>
          rcases approach_none_or h with hnone | hsome
          · simp only [runOps, hnone] at hrun
            exact Option.noConfusion hrun
          · simp only [runOps, hsome] at hrun
            exact ih { h with f := D.nan } s hTf (Or.inl rfl)
              (fun j hj => hgood j (List.mem_cons_of_mem _ hj)) hrun
      | steady i =>
          obtain ⟨hdt, hdtn, hy⟩ := hgood (HOp.steady i) (List.mem_cons_self _ _)
          have hfr := steady_frame h i.dt i.r i.u i.v i.y
          refine ih (helm_steady h i.dt i.r i.u i.v i.y).2 s ?_
            (steady_f_good h i hTf hf hdt hdtn hy)
            (fun j hj => hgood j (List.mem_cons_of_mem _ hj)) hrun
          rw [hfr.2.2.1]
          exact hTf

/-- C7: starting from a state with positive filter time whose filtered
observable is sentinel-or-finite, any completed sequence of operations
whose steps have finite `dt ≥ 0` and finite-or-sentinel observables ends
with a sentinel-or-finite filtered observable. -/
theorem filtered_observable_invariant (h s : helm_state) (ops : List HOp)
    (hTf : D.IsPos h.Tf) (hf : finOrNan h.f)
    (hgood : ∀ op ∈ ops, goodOp op) (hrun : runOps h ops = some s) :
    finOrNan s.f :=
  (runOps_f_good ops h s hTf hf hgood hrun).2

/-- Witness for C7: a full lifecycle ending with a finite filtered
observable. -/
theorem filtered_observable_invariant_witness :
    runOps exState5 wOps7 =
      some { kp := D.fin 1, Td := D.fin 0, Tf := D.inf true, Ti := D.inf true,
             Tt := D.inf true, y := D.fin 2, f := D.fin 2 } ∧
    finOrNan (D.fin 2) := by
  have hrun : runOps exState5 wOps7 =
      some { kp := D.fin 1, Td := D.fin 0, Tf := D.inf true, Ti := D.inf true,
             Tt := D.inf true, y := D.fin 2, f := D.fin 2 } := by
    norm_num [runOps, helm_reset, helm_approach, helm_steady, helmAlpha,
      D.le, D.lt, exState5, wOps7]
  have hgood : ∀ op ∈ wOps7, goodOp op := by
    intro op hop
    simp only [wOps7, List.mem_cons, List.not_mem_nil, or_false] at hop
    rcases hop with hop | hop | hop | hop <;> subst hop <;>
      norm_num [goodOp, D.le]
  have hinv := filtered_observable_invariant exState5
    { kp := D.fin 1, Td := D.fin 0, Tf := D.inf true, Ti := D.inf true,
      Tt := D.inf true, y := D.fin 2, f := D.fin 2 } wOps7
    (by norm_num [exState5, D.IsPos]) (Or.inr rfl) hgood hrun
  exact ⟨hrun, hinv⟩

/-- Counterexample to C7 as frozen: from a valid state, a single step with
finite `dt = -Tf` drives the filtered observable to `-∞`, which is
neither the sentinel nor finite. -/
theorem filtered_observable_invariant_cx :
    D.IsPos exState6.Tf ∧ finOrNan exState6.f ∧
    (D.fin (-1)).isFinite = true ∧ (D.fin 1).isFinite = true ∧
    runOps exState6 cxOps7 =
      some { kp := D.fin 1, Td := D.fin 0, Tf := D.fin 1, Ti := D.inf true,
             Tt := D.inf true, y := D.fin 1, f := D.inf false } ∧
    ¬ finOrNan (D.inf false) := by
  refine ⟨by norm_num [exState6, D.IsPos], Or.inr rfl, rfl, rfl, ?_, ?_⟩
  · norm_num [runOps, helm_steady, helmAlpha, exState6, cxOps7, exIn1]
  · intro hc
    rcases hc with hc | hc
    · exact D.noConfusion hc
    · simp at hc
